import Mathlib

/-!
Verification development for the XRD peak-segmentation and peak-fitting engine
(`src/xrd_analysis/analysis.py` and `src/xrd_analysis/utils.py`).

The engine's numeric boundary (scipy's `find_peaks` detector, the lmfit
nonlinear optimizer, the pandas dataframe) is external to the repository; the
embedding takes the detector's candidate-peak list, the derived interval size
and the optimizer's fitted values as explicit inputs, and embeds the
repository's own control flow and arithmetic over ℚ exactly as written.
-/

namespace XRD

/-! ## Segment finder: `get_peak_segments` (analysis.py lines 10-97)

A candidate peak is an `(angle, count)` pair, the zip of
`xrd_df["angle"].iloc[peaks]` with `xrd_df["counts"].iloc[peaks]`.
`candidates` below is that zipped list, `interval_size` the value of
`get_angle_interval_size`, both computed before the segmentation loop. -/

/-- `min(p[0] for p in cluster)`.  Python's `min` raises on an empty sequence;
clusters are nonempty whenever `neighborhood_size ≥ 0` (proved below), so the
`[]` case is unreachable there and its value is junk. -/
def minA : List (ℚ × ℚ) → ℚ
  | [] => 0
  | p :: r => r.foldl (fun m q => min m q.1) p.1

/-- `max(p[0] for p in cluster)`; same convention as `minA`. -/
def maxA : List (ℚ × ℚ) → ℚ
  | [] => 0
  | p :: r => r.foldl (fun m q => max m q.1) p.1

/-- One pass of the neighborhood-growth loop (analysis.py lines 62-71):
`seg_min_angle`/`seg_max_angle` are the current cluster's extrema ∓/± half the
neighborhood size, and the recollection keeps every candidate whose angle is
at least `seg_min_angle - 0.5*ns`, at most `seg_max_angle + 0.5*ns`, and at
least `min_angle`.  (Note the half-size is subtracted once into
`seg_min_angle` and a second time in the membership test.) -/
def growStep (candidates : List (ℚ × ℚ)) (ns mA : ℚ) (c : List (ℚ × ℚ)) :
    List (ℚ × ℚ) :=
  let segMin := minA c - ns / 2
  let segMax := maxA c + ns / 2
  candidates.filter fun p =>
    decide (segMin - ns / 2 ≤ p.1) && decide (p.1 ≤ segMax + ns / 2) &&
      decide (mA ≤ p.1)

/-- The `while peaks_in_seg != last_peaks_in_seg` loop (lines 61-71), with
explicit fuel.  The source loop's iteration count is bounded by the number of
candidates (proved below), so fuel `candidates.length` makes this equal to the
source's unbounded loop. -/
def growLoop (candidates : List (ℚ × ℚ)) (ns mA : ℚ) :
    Nat → List (ℚ × ℚ) → List (ℚ × ℚ)
  | 0, c => c
  | n + 1, c =>
    let c' := growStep candidates ns mA c
    if c' = c then c else growLoop candidates ns mA n c'

/-- `nearby_peaks_counts` for peak `p` (lines 77-82): the counts of the other
cluster entries (compared by angle) whose angle is strictly within `thr` of
`p`'s. -/
def nearbyCounts (thr : ℚ) (cluster : List (ℚ × ℚ)) (p : ℚ × ℚ) : List ℚ :=
  (cluster.filter fun q => decide (|p.1 - q.1| < thr) && decide (q.1 ≠ p.1)).map
    Prod.snd

/-- The dominated-peak suppression (lines 75-84): keep `p` when it has no
nearby peak or its count equals `max([p_c, *nearby_peaks_counts])`. -/
def domFilter (thr : ℚ) (cluster : List (ℚ × ℚ)) : List (ℚ × ℚ) :=
  cluster.filter fun p =>
    let nearby := nearbyCounts thr cluster p
    decide (nearby.length < 1) || decide (p.2 = nearby.foldl max p.2)

/-- A segment dictionary (lines 89-96): `min`, `max`, and the zipped
`peak_angles`/`peak_counts` lists. -/
structure Seg where
  min : ℚ
  max : ℚ
  peaks : List (ℚ × ℚ)
deriving DecidableEq, Repr

/-- The `for peak_angle, peak_count in zip(...)` loop (lines 54-96), with the
claimed-angle set `done` threaded through (`peak_angles_done`).  All cluster
angles are claimed before the dominance filter runs (lines 72-73). -/
def segLoop (candidates : List (ℚ × ℚ)) (ns thr mA : ℚ) :
    List (ℚ × ℚ) → List ℚ → List Seg
  | [], _ => []
  | (pa, pc) :: rest, done =>
    if pa < mA ∨ pa ∈ done then segLoop candidates ns thr mA rest done
    else
      let cluster := growLoop candidates ns mA candidates.length [(pa, pc)]
      let done' := done ++ cluster.map Prod.fst
      let filtered := domFilter thr cluster
      { min := minA filtered - ns / 2, max := maxA filtered + ns / 2,
        peaks := filtered } :: segLoop candidates ns thr mA rest done'

/-- `get_peak_segments` after the external detector: `candidates` is the
zipped peak list from `scipy.signal.find_peaks`, `interval_size` the result of
`get_angle_interval_size`; `neighborhood_size` and the dominance threshold are
derived exactly as in lines 41 and 80. -/
def get_peak_segments_core (candidates : List (ℚ × ℚ))
    (interval_size neighborhood_intervals min_n_interval_separation
      min_angle : ℚ) : List Seg :=
  let neighborhood_size := neighborhood_intervals * interval_size
  segLoop candidates neighborhood_size
    (min_n_interval_separation * interval_size) min_angle candidates []

/-! ### Basic lemmas about cluster extrema -/

theorem foldl_min_le_init (l : List (ℚ × ℚ)) (a : ℚ) :
    l.foldl (fun m q => min m q.1) a ≤ a := by
  induction l generalizing a with
  | nil => simp
  | cons x xs ih =>
    calc xs.foldl (fun m q => min m q.1) (min a x.1) ≤ min a x.1 := ih _
      _ ≤ a := min_le_left _ _

theorem foldl_min_le_mem (l : List (ℚ × ℚ)) (a : ℚ) {p : ℚ × ℚ}
    (hp : p ∈ l) : l.foldl (fun m q => min m q.1) a ≤ p.1 := by
  induction l generalizing a with
  | nil => cases hp
  | cons x xs ih =>
    rcases List.mem_cons.mp hp with h | h
    · subst h
      calc xs.foldl (fun m q => min m q.1) (min a p.1) ≤ min a p.1 :=
            foldl_min_le_init _ _
        _ ≤ p.1 := min_le_right _ _
    · exact ih _ h

theorem init_le_foldl_max (l : List (ℚ × ℚ)) (a : ℚ) :
    a ≤ l.foldl (fun m q => max m q.1) a := by
  induction l generalizing a with
  | nil => simp
  | cons x xs ih =>
    calc a ≤ max a x.1 := le_max_left _ _
      _ ≤ xs.foldl (fun m q => max m q.1) (max a x.1) := ih _

theorem mem_le_foldl_max (l : List (ℚ × ℚ)) (a : ℚ) {p : ℚ × ℚ}
    (hp : p ∈ l) : p.1 ≤ l.foldl (fun m q => max m q.1) a := by
  induction l generalizing a with
  | nil => cases hp
  | cons x xs ih =>
    rcases List.mem_cons.mp hp with h | h
    · subst h
      calc p.1 ≤ max a p.1 := le_max_right _ _
        _ ≤ xs.foldl (fun m q => max m q.1) (max a p.1) :=
            init_le_foldl_max _ _
    · exact ih _ h

theorem minA_le_of_mem {c : List (ℚ × ℚ)} {p : ℚ × ℚ} (hp : p ∈ c) :
    minA c ≤ p.1 := by
  cases c with
  | nil => cases hp
  | cons x xs =>
    rcases List.mem_cons.mp hp with h | h
    · subst h; exact foldl_min_le_init _ _
    · exact foldl_min_le_mem _ _ h

theorem le_maxA_of_mem {c : List (ℚ × ℚ)} {p : ℚ × ℚ} (hp : p ∈ c) :
    p.1 ≤ maxA c := by
  cases c with
  | nil => cases hp
  | cons x xs =>
    rcases List.mem_cons.mp hp with h | h
    · subst h; exact init_le_foldl_max _ _
    · exact mem_le_foldl_max _ _ h

theorem foldl_min_attained (l : List (ℚ × ℚ)) (a : ℚ) :
    l.foldl (fun m q => min m q.1) a = a ∨
      ∃ p ∈ l, l.foldl (fun m q => min m q.1) a = p.1 := by
  induction l generalizing a with
  | nil => exact Or.inl rfl
  | cons x xs ih =>
    rcases ih (min a x.1) with h | ⟨p, hp, h⟩
    · rcases min_cases a x.1 with ⟨hm, _⟩ | ⟨hm, _⟩
      · exact Or.inl (by simpa [hm] using h)
      · exact Or.inr ⟨x, List.mem_cons_self _ _, by simpa [hm] using h⟩
    · exact Or.inr ⟨p, List.mem_cons_of_mem _ hp, h⟩

theorem foldl_max_attained (l : List (ℚ × ℚ)) (a : ℚ) :
    l.foldl (fun m q => max m q.1) a = a ∨
      ∃ p ∈ l, l.foldl (fun m q => max m q.1) a = p.1 := by
  induction l generalizing a with
  | nil => exact Or.inl rfl
  | cons x xs ih =>
    rcases ih (max a x.1) with h | ⟨p, hp, h⟩
    · rcases max_cases a x.1 with ⟨hm, _⟩ | ⟨hm, _⟩
      · exact Or.inl (by simpa [hm] using h)
      · exact Or.inr ⟨x, List.mem_cons_self _ _, by simpa [hm] using h⟩
    · exact Or.inr ⟨p, List.mem_cons_of_mem _ hp, h⟩

theorem minA_mem {c : List (ℚ × ℚ)} (hc : c ≠ []) : ∃ p ∈ c, minA c = p.1 := by
  cases c with
  | nil => exact absurd rfl hc
  | cons x xs =>
    rcases foldl_min_attained xs x.1 with h | ⟨p, hp, h⟩
    · exact ⟨x, List.mem_cons_self _ _, h⟩
    · exact ⟨p, List.mem_cons_of_mem _ hp, h⟩

theorem maxA_mem {c : List (ℚ × ℚ)} (hc : c ≠ []) : ∃ p ∈ c, maxA c = p.1 := by
  cases c with
  | nil => exact absurd rfl hc
  | cons x xs =>
    rcases foldl_max_attained xs x.1 with h | ⟨p, hp, h⟩
    · exact ⟨x, List.mem_cons_self _ _, h⟩
    · exact ⟨p, List.mem_cons_of_mem _ hp, h⟩

theorem lt_minA {c : List (ℚ × ℚ)} {b : ℚ} (hc : c ≠ [])
    (h : ∀ p ∈ c, b < p.1) : b < minA c := by
  obtain ⟨p, hp, hv⟩ := minA_mem hc
  exact hv ▸ h p hp

theorem maxA_lt {c : List (ℚ × ℚ)} {b : ℚ} (hc : c ≠ [])
    (h : ∀ p ∈ c, p.1 < b) : maxA c < b := by
  obtain ⟨p, hp, hv⟩ := maxA_mem hc
  exact hv ▸ h p hp

theorem minA_le_maxA (c : List (ℚ × ℚ)) : minA c ≤ maxA c := by
  cases c with
  | nil => exact le_refl 0
  | cons x xs =>
    exact le_trans (minA_le_of_mem (List.mem_cons_self x xs))
      (le_maxA_of_mem (List.mem_cons_self x xs))

/-! ### The neighborhood-growth loop: membership, monotonicity, termination -/

theorem mem_growStep {candidates c : List (ℚ × ℚ)} {ns mA : ℚ} {p : ℚ × ℚ} :
    p ∈ growStep candidates ns mA c ↔
      p ∈ candidates ∧ minA c - ns / 2 - ns / 2 ≤ p.1 ∧
        p.1 ≤ maxA c + ns / 2 + ns / 2 ∧ mA ≤ p.1 := by
  simp [growStep, List.mem_filter, and_assoc]

theorem growStep_mem_inv {candidates c : List (ℚ × ℚ)} {ns mA : ℚ}
    {p : ℚ × ℚ} (hp : p ∈ growStep candidates ns mA c) :
    p ∈ candidates ∧ mA ≤ p.1 :=
  ⟨(mem_growStep.mp hp).1, (mem_growStep.mp hp).2.2.2⟩

theorem subset_growStep {candidates c : List (ℚ × ℚ)} {ns mA : ℚ}
    (hns : 0 ≤ ns) (hinv : ∀ p ∈ c, p ∈ candidates ∧ mA ≤ p.1) :
    ∀ p ∈ c, p ∈ growStep candidates ns mA c := by
  intro p hp
  refine mem_growStep.mpr ⟨(hinv p hp).1, ?_, ?_, (hinv p hp).2⟩
  · have h := minA_le_of_mem hp
    linarith
  · have h := le_maxA_of_mem hp
    linarith

theorem filter_sublist_of_imp (l : List (ℚ × ℚ)) (f g : ℚ × ℚ → Bool)
    (h : ∀ x ∈ l, f x = true → g x = true) :
    List.Sublist (l.filter f) (l.filter g) := by
  induction l with
  | nil => simp
  | cons x xs ih =>
    have ih' := ih fun y hy => h y (List.mem_cons_of_mem _ hy)
    by_cases hf : f x = true
    · have hg := h x (List.mem_cons_self _ _) hf
      simpa [List.filter_cons, hf, hg] using List.Sublist.cons₂ x ih'
    · rw [List.filter_cons, if_neg hf]
      by_cases hg : g x = true
      · rw [List.filter_cons, if_pos hg]
        exact List.Sublist.cons x ih'
      · rw [List.filter_cons, if_neg hg]
        exact ih'

/-- Members of a filter-shaped cluster satisfy the next pass's collection
predicate, so a pass only widens the cluster (as a sublist of `candidates`). -/
theorem growStep_widens {candidates c : List (ℚ × ℚ)} {ns mA : ℚ}
    (hns : 0 ≤ ns) (hinv : ∀ p ∈ c, p ∈ candidates ∧ mA ≤ p.1)
    {f : ℚ × ℚ → Bool} (hform : c = candidates.filter f) :
    List.Sublist c (growStep candidates ns mA c) := by
  subst hform
  rw [growStep]
  refine filter_sublist_of_imp _ _ _ fun x hx hfx => ?_
  have hxc : x ∈ candidates.filter f := List.mem_filter.mpr ⟨hx, hfx⟩
  have h1 := minA_le_of_mem hxc
  have h2 := le_maxA_of_mem hxc
  have h3 := (hinv x hxc).2
  simp only [Bool.and_eq_true, decide_eq_true_eq]
  exact ⟨⟨by linarith, by linarith⟩, h3⟩

/-- The fuel-indexed loop reaches a fixed point once the fuel plus the current
cluster size covers the candidate count: each non-final pass strictly grows
the cluster, which is bounded by the candidate list. -/
theorem growLoop_fix {candidates : List (ℚ × ℚ)} {ns mA : ℚ} (hns : 0 ≤ ns) :
    ∀ (fuel : Nat) (c : List (ℚ × ℚ)), c ≠ [] →
      (∀ p ∈ c, p ∈ candidates ∧ mA ≤ p.1) →
      (∃ f, c = candidates.filter f) →
      candidates.length ≤ fuel + c.length →
      growStep candidates ns mA (growLoop candidates ns mA fuel c) =
        growLoop candidates ns mA fuel c := by
  intro fuel
  induction fuel with
  | zero =>
    intro c hne hinv ⟨f, hform⟩ hlen
    have hsub : List.Sublist c candidates := hform ▸ List.filter_sublist _
    have hceq : c = candidates :=
      hsub.eq_of_length (le_antisymm hsub.length_le (by simpa using hlen))
    subst hceq
    simp only [growLoop]
    rw [growStep]
    refine List.filter_eq_self.mpr fun p hp => ?_
    have h1 := minA_le_of_mem hp
    have h2 := le_maxA_of_mem hp
    have h3 := (hinv p hp).2
    simp only [Bool.and_eq_true, decide_eq_true_eq]
    exact ⟨⟨by linarith, by linarith⟩, h3⟩
  | succ n ih =>
    intro c hne hinv ⟨f, hform⟩ hlen
    simp only [growLoop]
    by_cases hcc : growStep candidates ns mA c = c
    · rw [if_pos hcc]
      exact hcc
    · rw [if_neg hcc]
      have hwide : List.Sublist c (growStep candidates ns mA c) :=
        growStep_widens hns hinv hform
      have hlt : c.length < (growStep candidates ns mA c).length := by
        rcases lt_or_eq_of_le hwide.length_le with h | h
        · exact h
        · exact absurd (hwide.eq_of_length h).symm hcc
      refine ih (growStep candidates ns mA c) ?_ ?_ ?_ ?_
      · obtain ⟨p, hp⟩ := List.exists_mem_of_ne_nil c hne
        exact List.ne_nil_of_mem (subset_growStep hns hinv p hp)
      · exact fun p hp => growStep_mem_inv hp
      · exact ⟨_, rfl⟩
      · omega

/-- Starting from a singleton seed drawn from the candidate list, fuel equal
to the number of candidates reaches the loop's fixed point. -/
theorem growLoop_seed_fix {candidates : List (ℚ × ℚ)} {ns mA : ℚ}
    (hns : 0 ≤ ns) {t : ℚ × ℚ} (ht : t ∈ candidates) (htA : mA ≤ t.1) :
    growStep candidates ns mA
        (growLoop candidates ns mA candidates.length [t]) =
      growLoop candidates ns mA candidates.length [t] := by
  have hinv : ∀ p ∈ [t], p ∈ candidates ∧ mA ≤ p.1 := by
    intro p hp
    rw [List.mem_singleton.mp hp]
    exact ⟨ht, htA⟩
  obtain ⟨n, hn⟩ : ∃ n, candidates.length = n + 1 :=
    ⟨candidates.length - 1, by
      have := List.length_pos.mpr (List.ne_nil_of_mem ht)
      omega⟩
  rw [hn]
  simp only [growLoop]
  by_cases hcc : growStep candidates ns mA [t] = [t]
  · rw [if_pos hcc]
    exact hcc
  · rw [if_neg hcc]
    have htmem : t ∈ growStep candidates ns mA [t] :=
      subset_growStep hns hinv t (List.mem_singleton_self t)
    refine growLoop_fix hns n (growStep candidates ns mA [t])
      (List.ne_nil_of_mem htmem) (fun p hp => growStep_mem_inv hp)
      ⟨_, rfl⟩ ?_
    have : 1 ≤ (growStep candidates ns mA [t]).length :=
      List.length_pos.mpr (List.ne_nil_of_mem htmem)
    omega

/-- Membership invariants survive any number of loop passes. -/
theorem growLoop_mem_inv {candidates : List (ℚ × ℚ)} {ns mA : ℚ} :
    ∀ (fuel : Nat) (c : List (ℚ × ℚ)),
      (∀ p ∈ c, p ∈ candidates ∧ mA ≤ p.1) →
      ∀ p ∈ growLoop candidates ns mA fuel c, p ∈ candidates ∧ mA ≤ p.1 := by
  intro fuel
  induction fuel with
  | zero => intro c hinv; simpa [growLoop] using hinv
  | succ n ih =>
    intro c hinv
    simp only [growLoop]
    by_cases hcc : growStep candidates ns mA c = c
    · simpa [hcc] using hinv
    · rw [if_neg hcc]
      exact ih _ fun p hp => growStep_mem_inv hp

/-- The seed never leaves the cluster. -/
theorem growLoop_seed_mem {candidates : List (ℚ × ℚ)} {ns mA : ℚ}
    (hns : 0 ≤ ns) {t : ℚ × ℚ} :
    ∀ (fuel : Nat) (c : List (ℚ × ℚ)),
      (∀ p ∈ c, p ∈ candidates ∧ mA ≤ p.1) → t ∈ c →
      t ∈ growLoop candidates ns mA fuel c := by
  intro fuel
  induction fuel with
  | zero => intro c _ htc; simpa [growLoop] using htc
  | succ n ih =>
    intro c hinv htc
    simp only [growLoop]
    by_cases hcc : growStep candidates ns mA c = c
    · simpa [hcc] using htc
    · rw [if_neg hcc]
      exact ih _ (fun p hp => growStep_mem_inv hp)
        (subset_growStep hns hinv t htc)

/-- Composing runs of the fuel-indexed loop. -/
theorem growLoop_add {candidates : List (ℚ × ℚ)} {ns mA : ℚ} :
    ∀ (n k : Nat) (c : List (ℚ × ℚ)),
      growLoop candidates ns mA (n + k) c =
        growLoop candidates ns mA k (growLoop candidates ns mA n c) := by
  intro n
  induction n with
  | zero => intro k c; simp [growLoop]
  | succ m ih =>
    intro k c
    by_cases hcc : growStep candidates ns mA c = c
    · have habsorb : ∀ j, growLoop candidates ns mA j c = c := by
        intro j
        cases j with
        | zero => rfl
        | succ j' => simp [growLoop, hcc]
      have : m + 1 + k = (m + k) + 1 := by omega
      rw [this]
      simp [growLoop, hcc, habsorb]
    · have h1 : m + 1 + k = (m + k) + 1 := by omega
      rw [h1]
      simp only [growLoop, if_neg hcc]
      exact ih k _

/-- A fixed point absorbs any further fuel. -/
theorem growLoop_of_fix {candidates c : List (ℚ × ℚ)} {ns mA : ℚ}
    (hfix : growStep candidates ns mA c = c) :
    ∀ fuel, growLoop candidates ns mA fuel c = c := by
  intro fuel
  cases fuel with
  | zero => rfl
  | succ n => simp [growLoop, hfix]

/-! ### Segment disjointness

A stabilized cluster `S` already holds every candidate inside its collection
window, so a later cluster that starts outside `S` stays strictly outside
`S`'s window forever: clusters of different segments can never share a peak,
even though the recollection comprehension (lines 65-71) never consults
`peak_angles_done`. -/

/-- A fixed-point cluster contains every candidate with angle at least
`min_angle` lying inside its collection window. -/
theorem fix_stable {candidates S : List (ℚ × ℚ)} {ns mA : ℚ}
    (hfix : growStep candidates ns mA S = S) {q : ℚ × ℚ}
    (hq : q ∈ candidates) (hqA : mA ≤ q.1)
    (h1 : minA S - ns / 2 - ns / 2 ≤ q.1)
    (h2 : q.1 ≤ maxA S + ns / 2 + ns / 2) : q ∈ S := by
  rw [← hfix]
  exact mem_growStep.mpr ⟨hq, h1, h2, hqA⟩

/-- `SepFrom ns S c`: cluster `c` lies entirely on one side of cluster `S`,
strictly outside `S`'s collection window. -/
def SepFrom (ns : ℚ) (S c : List (ℚ × ℚ)) : Prop :=
  (∀ p ∈ c, maxA S + ns / 2 + ns / 2 < p.1) ∨
    (∀ p ∈ c, p.1 < minA S - ns / 2 - ns / 2)

theorem sep_step {candidates S c : List (ℚ × ℚ)} {ns mA : ℚ} (_hns : 0 ≤ ns)
    (hfix : growStep candidates ns mA S = S) (hc : c ≠ [])
    (hsep : SepFrom ns S c) : SepFrom ns S (growStep candidates ns mA c) := by
  have hSmm := minA_le_maxA S
  rcases hsep with hR | hL
  · left
    intro q hq
    obtain ⟨hqc, hq1, hq2, hqA⟩ := mem_growStep.mp hq
    have hmin : maxA S + ns / 2 + ns / 2 < minA c := lt_minA hc hR
    by_contra hle
    push_neg at hle
    have hqS : q ∈ S := fix_stable hfix hqc hqA (by linarith) hle
    have := le_maxA_of_mem hqS
    linarith
  · right
    intro q hq
    obtain ⟨hqc, hq1, hq2, hqA⟩ := mem_growStep.mp hq
    have hmax : maxA c < minA S - ns / 2 - ns / 2 := maxA_lt hc hL
    by_contra hle
    push_neg at hle
    have hqS : q ∈ S := fix_stable hfix hqc hqA hle (by linarith)
    have := minA_le_of_mem hqS
    linarith

theorem sep_loop {candidates S : List (ℚ × ℚ)} {ns mA : ℚ} (hns : 0 ≤ ns)
    (hfix : growStep candidates ns mA S = S) :
    ∀ (fuel : Nat) (c : List (ℚ × ℚ)), c ≠ [] →
      (∀ p ∈ c, p ∈ candidates ∧ mA ≤ p.1) → SepFrom ns S c →
      SepFrom ns S (growLoop candidates ns mA fuel c) := by
  intro fuel
  induction fuel with
  | zero => intro c _ _ hsep; exact hsep
  | succ n ih =>
    intro c hne hinv hsep
    simp only [growLoop]
    by_cases hcc : growStep candidates ns mA c = c
    · rw [if_pos hcc]
      exact hsep
    · rw [if_neg hcc]
      refine ih _ ?_ (fun p hp => growStep_mem_inv hp)
        (sep_step hns hfix hne hsep)
      obtain ⟨p, hp⟩ := List.exists_mem_of_ne_nil c hne
      exact List.ne_nil_of_mem (subset_growStep hns hinv p hp)

/-- A seed that shares no angle with a stabilized cluster starts strictly
outside that cluster's window. -/
theorem sep_seed {candidates S : List (ℚ × ℚ)} {ns mA : ℚ} (_hns : 0 ≤ ns)
    (hfix : growStep candidates ns mA S = S) {t : ℚ × ℚ}
    (ht : t ∈ candidates) (htA : mA ≤ t.1) (hts : ∀ s ∈ S, t.1 ≠ s.1) :
    SepFrom ns S [t] := by
  by_cases h1 : maxA S + ns / 2 + ns / 2 < t.1
  · left
    intro p hp
    rw [List.mem_singleton.mp hp]
    exact h1
  · by_cases h2 : t.1 < minA S - ns / 2 - ns / 2
    · right
      intro p hp
      rw [List.mem_singleton.mp hp]
      exact h2
    · push_neg at h1 h2
      have htS : t ∈ S := fix_stable hfix ht htA h2 h1
      exact absurd rfl (hts t htS)

theorem sep_disjoint {S c : List (ℚ × ℚ)} {ns : ℚ} (hns : 0 ≤ ns)
    (hsep : SepFrom ns S c) : ∀ p ∈ c, ∀ s ∈ S, p.1 ≠ s.1 := by
  intro p hp s hs heq
  have hsmax := le_maxA_of_mem hs
  have hsmin := minA_le_of_mem hs
  rcases hsep with hR | hL
  · have := hR p hp
    rw [heq] at this
    linarith
  · have := hL p hp
    rw [heq] at this
    linarith

/-- Two segments never share a peak angle. -/
def segPeaksDisjoint (s₁ s₂ : Seg) : Prop :=
  ∀ p ∈ s₁.peaks, ∀ q ∈ s₂.peaks, p.1 ≠ q.1

/-- Main invariant of the outer segmentation loop: provided the claimed set
`done` can never be re-entered by a fresh seed's grown cluster, every emitted
segment keeps clear of `done` and the emitted segments are pairwise
angle-disjoint. -/
theorem segLoop_disjoint_aux (candidates : List (ℚ × ℚ)) (ns thr mA : ℚ)
    (hns : 0 ≤ ns) :
    ∀ (rest : List (ℚ × ℚ)) (done : List ℚ),
      (∀ p ∈ rest, p ∈ candidates) →
      (∀ t ∈ candidates, mA ≤ t.1 → t.1 ∉ done →
        ∀ p ∈ growLoop candidates ns mA candidates.length [t], p.1 ∉ done) →
      (∀ s ∈ segLoop candidates ns thr mA rest done, ∀ p ∈ s.peaks,
        p.1 ∉ done) ∧
        List.Pairwise segPeaksDisjoint
          (segLoop candidates ns thr mA rest done) := by
  intro rest
  induction rest with
  | nil =>
    intro done _ _
    exact ⟨by simp [segLoop], by simp [segLoop]⟩
  | cons hd tl ih =>
    obtain ⟨pa, pc⟩ := hd
    intro done hrest hA
    by_cases hskip : pa < mA ∨ pa ∈ done
    · simp only [segLoop]
      rw [if_pos hskip]
      exact ih done (fun p hp => hrest p (List.mem_cons_of_mem _ hp)) hA
    · have hge : mA ≤ pa := le_of_not_lt fun h => hskip (Or.inl h)
      have hnd : pa ∉ done := fun h => hskip (Or.inr h)
      have hseed : (pa, pc) ∈ candidates := hrest _ (List.mem_cons_self _ _)
      have hstart : ∀ p ∈ [((pa : ℚ), (pc : ℚ))], p ∈ candidates ∧ mA ≤ p.1 := by
        intro p hp
        rw [List.mem_singleton.mp hp]
        exact ⟨hseed, hge⟩
      have hfix := growLoop_seed_fix hns hseed hge
      have hclinv : ∀ p ∈ growLoop candidates ns mA candidates.length
          [(pa, pc)], p ∈ candidates ∧ mA ≤ p.1 :=
        growLoop_mem_inv candidates.length _ hstart
      have hseedcl : (pa, pc) ∈
          growLoop candidates ns mA candidates.length [(pa, pc)] :=
        growLoop_seed_mem hns candidates.length _ hstart
          (List.mem_singleton_self _)
      have hclnd : ∀ p ∈ growLoop candidates ns mA candidates.length
          [(pa, pc)], p.1 ∉ done := hA (pa, pc) hseed hge hnd
      have hA' : ∀ t ∈ candidates, mA ≤ t.1 →
          t.1 ∉ done ++ (growLoop candidates ns mA candidates.length
            [(pa, pc)]).map Prod.fst →
          ∀ p ∈ growLoop candidates ns mA candidates.length [t],
            p.1 ∉ done ++ (growLoop candidates ns mA candidates.length
              [(pa, pc)]).map Prod.fst := by
        intro t htc htA htnd p hp
        rw [List.mem_append] at htnd
        push_neg at htnd
        have hts : ∀ s ∈ growLoop candidates ns mA candidates.length
            [(pa, pc)], t.1 ≠ s.1 := by
          intro s hs heq
          exact htnd.2 (List.mem_map.mpr ⟨s, hs, heq.symm⟩)
        have hstart' : ∀ q ∈ [t], q ∈ candidates ∧ mA ≤ q.1 := by
          intro q hq
          rw [List.mem_singleton.mp hq]
          exact ⟨htc, htA⟩
        have hsep := sep_loop hns hfix candidates.length [t]
          (List.cons_ne_nil t []) hstart' (sep_seed hns hfix htc htA hts)
        rw [List.mem_append]
        push_neg
        refine ⟨hA t htc htA htnd.1 p hp, fun hmem => ?_⟩
        obtain ⟨s, hs, heq⟩ := List.mem_map.mp hmem
        exact sep_disjoint hns hsep p hp s hs heq.symm
      obtain ⟨tailND, tailPW⟩ := ih
        (done ++ (growLoop candidates ns mA candidates.length
          [(pa, pc)]).map Prod.fst)
        (fun p hp => hrest p (List.mem_cons_of_mem _ hp)) hA'
      simp only [segLoop]
      rw [if_neg hskip]
      constructor
      · intro s hs p hp
        rcases List.mem_cons.mp hs with h | h
        · subst h
          exact hclnd p (List.mem_of_mem_filter hp)
        · intro hcontra
          exact tailND s h p hp (List.mem_append_left _ hcontra)
      · rw [List.pairwise_cons]
        refine ⟨fun s' hs' p hp q hq heq => ?_, tailPW⟩
        have hpcl : p ∈ growLoop candidates ns mA candidates.length
            [(pa, pc)] := List.mem_of_mem_filter hp
        have hqnd := tailND s' hs' q hq
        exact hqnd (List.mem_append_right _
          (List.mem_map.mpr ⟨p, hpcl, heq⟩))

/-! ### The dominance filter and the emitted segment bounds -/

theorem le_foldl_max_q (l : List ℚ) (b : ℚ) : b ≤ l.foldl max b := by
  induction l generalizing b with
  | nil => simp
  | cons y ys ihy => exact le_trans (le_max_left b y) (ihy (max b y))

theorem foldl_max_eq_iff (l : List ℚ) (a : ℚ) :
    l.foldl max a = a ↔ ∀ x ∈ l, x ≤ a := by
  induction l generalizing a with
  | nil => simp
  | cons x xs ih =>
    constructor
    · intro h
      have hax : max a x ≤ xs.foldl max (max a x) := le_foldl_max_q _ _
      have hxa : x ≤ a := le_trans (le_max_right a x) (by
        calc max a x ≤ xs.foldl max (max a x) := hax
          _ = a := h)
      have hmax : max a x = a := max_eq_left hxa
      rw [List.foldl_cons, hmax] at h
      intro y hy
      rcases List.mem_cons.mp hy with rfl | hy'
      · exact hxa
      · exact (ih a).mp h y hy'
    · intro h
      have hxa : x ≤ a := h x (List.mem_cons_self _ _)
      rw [List.foldl_cons, max_eq_left hxa]
      exact (ih a).mpr fun y hy => h y (List.mem_cons_of_mem _ hy)

/-- Membership in the dominance filter: a peak survives exactly when no other
cluster peak (by angle) strictly within `thr` of it is taller. -/
theorem mem_domFilter {thr : ℚ} {cluster : List (ℚ × ℚ)} {p : ℚ × ℚ} :
    p ∈ domFilter thr cluster ↔
      p ∈ cluster ∧
        ∀ q ∈ cluster, q.1 ≠ p.1 → |p.1 - q.1| < thr → q.2 ≤ p.2 := by
  rw [domFilter, List.mem_filter]
  refine and_congr_right fun _ => ?_
  simp only [Bool.or_eq_true, decide_eq_true_eq]
  constructor
  · intro h q hq hne hclose
    rcases h with h | h
    · exfalso
      have hmem : q.2 ∈ nearbyCounts thr cluster p :=
        List.mem_map.mpr ⟨q, List.mem_filter.mpr ⟨hq, by
          simp only [Bool.and_eq_true, decide_eq_true_eq]
          exact ⟨hclose, hne⟩⟩, rfl⟩
      have := List.length_pos.mpr (List.ne_nil_of_mem hmem)
      omega
    · have hmem : q.2 ∈ nearbyCounts thr cluster p :=
        List.mem_map.mpr ⟨q, List.mem_filter.mpr ⟨hq, by
          simp only [Bool.and_eq_true, decide_eq_true_eq]
          exact ⟨hclose, hne⟩⟩, rfl⟩
      exact (foldl_max_eq_iff _ _).mp h.symm q.2 hmem
  · intro h
    right
    symm
    refine (foldl_max_eq_iff _ _).mpr fun x hx => ?_
    obtain ⟨q, hq, hqx⟩ := List.mem_map.mp hx
    obtain ⟨hqc, hcond⟩ := List.mem_filter.mp hq
    simp only [Bool.and_eq_true, decide_eq_true_eq] at hcond
    exact hqx ▸ h q hqc hcond.2 hcond.1

/-- Every emitted segment's bounds contain all its retained peak angles. -/
theorem segLoop_bounds (candidates : List (ℚ × ℚ)) (ns thr mA : ℚ)
    (hns : 0 ≤ ns) :
    ∀ (rest : List (ℚ × ℚ)) (done : List ℚ),
      ∀ s ∈ segLoop candidates ns thr mA rest done, ∀ p ∈ s.peaks,
        s.min ≤ p.1 ∧ p.1 ≤ s.max := by
  intro rest
  induction rest with
  | nil => intro done s hs; simp [segLoop] at hs
  | cons hd tl ih =>
    obtain ⟨pa, pc⟩ := hd
    intro done s hs
    by_cases hskip : pa < mA ∨ pa ∈ done
    · rw [segLoop, if_pos hskip] at hs
      exact ih done s hs
    · rw [segLoop, if_neg hskip] at hs
      rcases List.mem_cons.mp hs with h | h
      · subst h
        intro p hp
        have h1 := minA_le_of_mem hp
        have h2 := le_maxA_of_mem hp
        exact ⟨by simpa using by linarith, by simpa using by linarith⟩
      · exact ih _ s h

/-! ## Segment fitter: `get_segment_peak_fit` (analysis.py lines 100-192)

The nonlinear optimizer is external (lmfit); the embedding abstracts each
call `model.fit(seg_df["counts"], params, x=seg_df["angle"])` as an oracle
`fit : List Comp → Nat → PV` mapping the model's component list to the fitted
`height`/`center`/`sigma` read back from `result.params` for each pseudo-Voigt
component.  Everything else — the model bookkeeping, the validity rules, and
the `while` loop around them — is repository code and is embedded exactly. -/

/-- A model component: the linear background (`linear_` prefix) or the
pseudo-Voigt with prefix `voigt_{i}_`. -/
inductive Comp where
  | linear : Comp
  | voigt : Nat → Comp
deriving DecidableEq, Repr

/-- The fitted `height`, `center` and `sigma` of one pseudo-Voigt component,
as read from `result.params[f"voigt_i_height"]` etc. -/
structure PV where
  height : ℚ
  center : ℚ
  sigma : ℚ
deriving DecidableEq, Repr

/-- The fitter's configuration and segment-derived constants: the segment
dictionary's `min`/`max`, the restricted dataframe's extreme angles
(`np.min`/`np.max` of `seg_df["angle"]`), and the three keyword defaults. -/
structure FitCfg where
  segMin : ℚ
  segMax : ℚ
  dfMin : ℚ
  dfMax : ℚ
  minPeakHeight : ℚ
  maxSigmaScale : ℚ
  minSigma : ℚ
deriving DecidableEq, Repr

/-- `model.components` of the initial model (lines 127-136): the linear
background plus one pseudo-Voigt per segment peak, in order. -/
def initComps (nPeaks : Nat) : List Comp :=
  Comp.linear :: (List.range nPeaks).map Comp.voigt

/-- One pass of the component-validity `for` loop (lines 149-187), evaluated
against the current fitted values: the background is kept unconditionally; a
pseudo-Voigt is dropped when a different pseudo-Voigt of the model is both
taller and within one of this component's own sigmas of its center, or when
its height, center or sigma violates the bounds.  (`(...)/sigma` is Python
division; Lean's `/` agrees with it whenever `sigma ≠ 0` — Python would raise
`ZeroDivisionError` at `sigma = 0`, which no concrete input below hits.) -/
def validPass (cfg : FitCfg) (comps : List Comp) (fitted : Nat → PV) :
    List Comp :=
  comps.filter fun comp =>
    match comp with
    | Comp.linear => true
    | Comp.voigt i =>
      let h := (fitted i).height
      let c := (fitted i).center
      let s := (fitted i).sigma
      let dominated := comps.any fun other =>
        match other with
        | Comp.linear => false
        | Comp.voigt j =>
          decide (j ≠ i) && decide (|c - (fitted j).center| / s < 1) &&
            decide (h < (fitted j).height)
      let rangeBad :=
        decide (h < cfg.minPeakHeight) || decide (c < cfg.segMin) ||
          decide (c > cfg.segMax) ||
          decide (s > cfg.maxSigmaScale * (cfg.dfMax - cfg.dfMin)) ||
          decide (s < cfg.minSigma)
      !dominated && !rangeBad

/-- The state of the pruning `while` loop (lines 145-191): Python's
`last_valid_components` (`none` before the first pass), `valid_components`,
`result.model.components`, and the current fitted values. -/
structure PruneState where
  last : Option (List Comp)
  valid : List Comp
  comps : List Comp
  fitted : Nat → PV

/-- The loop guard `last_valid_components is None or valid_components !=
last_valid_components` (line 147). -/
def pruneCond (s : PruneState) : Bool :=
  match s.last with
  | none => true
  | some l => decide (s.valid ≠ l)

/-- One body execution (lines 148-191).  In the source,
`last_valid_components = valid_components` makes the two names aliases of one
Python list and `valid_components` is never reset, so the in-place appends of
the `for` loop land in both: at the end of the body the two names hold the
same (extended) list.  In value semantics that is: append this pass's
survivors to `valid`, then set `last` to that same extended list; rebuild the
model from it and refit. -/
def pruneBody (fit : List Comp → Nat → PV) (cfg : FitCfg) (s : PruneState) :
    PruneState :=
  let valid' := s.valid ++ validPass cfg s.comps s.fitted
  { last := some valid', valid := valid', comps := valid', fitted := fit valid' }

/-- The `while` loop with fuel (the source loop always exits after one body
execution — proved below — so any fuel of at least 1 computes the source's
behaviour). -/
def pruneLoop (fit : List Comp → Nat → PV) (cfg : FitCfg) :
    Nat → PruneState → PruneState
  | 0, s => s
  | n + 1, s =>
    if pruneCond s then pruneLoop fit cfg n (pruneBody fit cfg s) else s

/-- `get_segment_peak_fit` after the external optimizer: build the initial
model (one background plus `nPeaks` pseudo-Voigts), fit it, then run the
pruning loop.  The returned state's `valid`/`comps` are the surviving model
components and `fitted` the final fitted values. -/
def get_segment_peak_fit_core (fit : List Comp → Nat → PV) (cfg : FitCfg)
    (nPeaks : Nat) (fuel : Nat) : PruneState :=
  pruneLoop fit cfg fuel
    { last := none, valid := [], comps := initComps nPeaks,
      fitted := fit (initComps nPeaks) }

/-- After one body execution the guard is false: `last` and `valid` hold the
same list, so the loop stops whatever fuel remains. -/
theorem pruneLoop_after_body (fit : List Comp → Nat → PV) (cfg : FitCfg)
    (s : PruneState) :
    ∀ fuel, pruneLoop fit cfg fuel (pruneBody fit cfg s) =
      pruneBody fit cfg s := by
  intro fuel
  cases fuel with
  | zero => rfl
  | succ n =>
    have hcond : pruneCond (pruneBody fit cfg s) = false := by
      simp [pruneCond, pruneBody]
    simp [pruneLoop, hcond]

/-- The source's pruning loop performs exactly one pass: with any positive
fuel the result is the single body execution from the initial state. -/
theorem get_segment_peak_fit_one_pass (fit : List Comp → Nat → PV)
    (cfg : FitCfg) (nPeaks : Nat) :
    ∀ fuel, 1 ≤ fuel →
      get_segment_peak_fit_core fit cfg nPeaks fuel =
        get_segment_peak_fit_core fit cfg nPeaks 1 := by
  intro fuel hfuel
  obtain ⟨n, rfl⟩ : ∃ n, fuel = n + 1 := ⟨fuel - 1, by omega⟩
  show pruneLoop fit cfg (n + 1) _ = pruneLoop fit cfg 1 _
  have hcond : pruneCond
      { last := none, valid := [], comps := initComps nPeaks,
        fitted := fit (initComps nPeaks) } = true := by
    simp [pruneCond]
  simp only [pruneLoop, hcond, if_true]
  rw [pruneLoop_after_body]

/-! ## `get_angle_interval_size` (utils.py lines 37-64)

The CSV angle column is a sequence of decimal numbers; `Dec` is one entry as
Python renders it: `mant / 10^prec`, where `prec` is the number of digits
after the decimal point in `str(x)` (0 when there is none).  pandas/numpy
`round` rounds halves to even; `rndHalfEven`/`roundTo` embed that on ℚ
(`round(decimals)` with a possibly negative decimal count). -/

structure Dec where
  mant : Int
  prec : Nat
deriving DecidableEq, Repr

def Dec.val (d : Dec) : ℚ := (d.mant : ℚ) / 10 ^ d.prec

/-- `xrd_angles_column.diff().dropna()`: consecutive differences. -/
def diffs : List Dec → List ℚ
  | [] => []
  | [_] => []
  | a :: b :: rest => (b.val - a.val) :: diffs (b :: rest)

/-- Round to the nearest integer, halves to even (numpy's rounding mode). -/
def rndHalfEven (x : ℚ) : ℤ :=
  let f := ⌊x⌋
  let r := x - (f : ℚ)
  if r < 1 / 2 then f
  else if 1 / 2 < r then f + 1
  else if f % 2 = 0 then f else f + 1

/-- `10 ^ d` for a possibly negative decimal count. -/
def tenPow (d : ℤ) : ℚ :=
  if 0 ≤ d then ((10 : ℚ) ^ d.toNat) else 1 / (10 : ℚ) ^ (-d).toNat

/-- `Series.round(decimals)`: scale, round half-to-even, unscale. -/
def roundTo (decimals : ℤ) (x : ℚ) : ℚ :=
  ((rndHalfEven (x * tenPow decimals) : ℚ)) / tenPow decimals

/-- `max(angle_precisions)` over a nonempty column (the `0` initial value
never wins since precisions are naturals). -/
def maxPrec (col : List Dec) : Nat := (col.map Dec.prec).foldl max 0

/-- `step_sizes = xrd_angles_column.diff().dropna().round(max_precision - 1)`
(note `max_precision - 1` is integer arithmetic and may be `-1`). -/
def roundedSteps (col : List Dec) : List ℚ :=
  (diffs col).map (roundTo ((maxPrec col : ℤ) - 1))

/-- `get_angle_interval_size`: return the first rounded step when the rounded
steps take exactly one distinct value (`nunique() == 1`), otherwise raise
`ValueError`.  An empty column makes Python's builtin `max` raise first. -/
def get_angle_interval_size (col : List Dec) : Except String ℚ :=
  match col with
  | [] => Except.error "max() arg is an empty sequence"
  | _ :: _ =>
    if (roundedSteps col).dedup.length = 1 then
      Except.ok ((roundedSteps col).headD 0)
    else
      Except.error "Angles are not all evenly spaced!"

theorem diffs_length : ∀ col : List Dec, (diffs col).length = col.length - 1
  | [] => rfl
  | [_] => rfl
  | a :: b :: rest => by
    have ih := diffs_length (b :: rest)
    simp only [diffs, List.length_cons] at ih ⊢
    omega

theorem dedup_const {l : List ℚ} {r : ℚ} (hne : l ≠ [])
    (hall : ∀ x ∈ l, x = r) : l.dedup = [r] := by
  induction l with
  | nil => exact absurd rfl hne
  | cons x xs ih =>
    have hx : x = r := hall x (List.mem_cons_self _ _)
    by_cases hxs : xs = []
    · subst hxs
      rw [hx]
      simp
    · have hdedup : xs.dedup = [r] :=
        ih hxs fun z hz => hall z (List.mem_cons_of_mem _ hz)
      have hmem : x ∈ xs :=
        List.mem_dedup.mp
          (by rw [hdedup, hx]; exact List.mem_singleton_self _)
      rw [List.dedup_cons_of_mem hmem, hdedup]

/-- On a uniformly spaced column of at least two angles, the function returns
the common step rounded to one decimal less than the column's maximum
precision, and does not raise. -/
theorem gais_uniform {col : List Dec} {d : ℚ} (hlen : 2 ≤ col.length)
    (hall : ∀ x ∈ diffs col, x = d) :
    get_angle_interval_size col =
      Except.ok (roundTo ((maxPrec col : ℤ) - 1) d) := by
  have hdiffne : diffs col ≠ [] := by
    have := diffs_length col
    intro h
    rw [h] at this
    simp at this
    omega
  have hallr : ∀ x ∈ roundedSteps col, x = roundTo ((maxPrec col : ℤ) - 1) d := by
    intro x hx
    obtain ⟨y, hy, hxy⟩ := List.mem_map.mp hx
    rw [← hxy, hall y hy]
  have hrne : roundedSteps col ≠ [] := by
    intro h
    exact hdiffne (List.map_eq_nil_iff.mp h)
  have hdedup : (roundedSteps col).dedup = [roundTo ((maxPrec col : ℤ) - 1) d] :=
    dedup_const hrne hallr
  obtain ⟨c0, rest, rfl⟩ : ∃ c0 rest, col = c0 :: rest := by
    cases col with
    | nil => simp at hlen
    | cons c0 rest => exact ⟨c0, rest, rfl⟩
  rw [get_angle_interval_size]
  rw [hdedup]
  simp only [List.length_singleton, if_pos rfl]
  obtain ⟨s0, srest, hs⟩ : ∃ s0 srest, roundedSteps (c0 :: rest) = s0 :: srest := by
    cases h : roundedSteps (c0 :: rest) with
    | nil => exact absurd h hrne
    | cons s0 srest => exact ⟨s0, srest, rfl⟩
  rw [hs]
  have : s0 = roundTo ((maxPrec (c0 :: rest) : ℤ) - 1) d :=
    hallr s0 (by rw [hs]; exact List.mem_cons_self _ _)
  simp [this]

/-! ## `get_raw_file_name` (utils.py lines 7-34)

File contents are embedded as `List Char`.  `readline` returns the next line
including its terminating newline (both the text-file branch and the BytesIO
branch of the source read lines this way); the extraction then mirrors
`line_2.split(",")[-1]`. -/

def readline : List Char → List Char × List Char
  | [] => ([], [])
  | c :: rest =>
    if c = '\n' then ([c], rest)
    else
      let r := readline rest
      (c :: r.1, r.2)

/-- Python's `str.split(",")`. -/
def splitComma : List Char → List (List Char)
  | [] => [[]]
  | c :: rest =>
    if c = ',' then [] :: splitComma rest
    else
      match splitComma rest with
      | [] => [[c]]
      | g :: gs => (c :: g) :: gs

/-- `get_raw_file_name`: skip the first line, read the second, split it on
commas and return the last field (`[-1]`; `split` never yields an empty
list, so the `[]` default of `getLastD` is unreachable). -/
def get_raw_file_name (content : List Char) : List Char :=
  let line2 := (readline (readline content).2).1
  (splitComma line2).getLastD []

theorem readline_append {l : List Char} (hl : '\n' ∉ l) (r : List Char) :
    readline (l ++ '\n' :: r) = (l ++ ['\n'], r) := by
  induction l with
  | nil => simp [readline]
  | cons c cs ih =>
    have hc : ¬(c = '\n') := fun h => hl (h ▸ List.mem_cons_self _ _)
    have ihh := ih fun h => hl (List.mem_cons_of_mem _ h)
    simp only [List.cons_append, readline, if_neg hc, List.append_eq, ihh]

theorem splitComma_ne_nil : ∀ l : List Char, splitComma l ≠ []
  | [] => by simp [splitComma]
  | c :: rest => by
    rw [splitComma]
    by_cases hc : c = ','
    · rw [if_pos hc]
      exact List.cons_ne_nil _ _
    · rw [if_neg hc]
      cases h : splitComma rest with
      | nil => exact List.cons_ne_nil _ _
      | cons g gs => exact List.cons_ne_nil _ _

theorem splitComma_no_comma : ∀ {l : List Char}, ',' ∉ l → splitComma l = [l]
  | [], _ => rfl
  | c :: rest, h => by
    have hc : ¬(c = ',') := fun hh => h (hh ▸ List.mem_cons_self _ _)
    have ih : splitComma rest = [rest] :=
      splitComma_no_comma fun hh => h (List.mem_cons_of_mem _ hh)
    rw [splitComma, if_neg hc, ih]

theorem getLastD_default_irrel :
    ∀ (ys : List (List Char)) (y d₁ d₂ : List Char),
      (y :: ys).getLastD d₁ = (y :: ys).getLastD d₂ := by
  intro ys
  induction ys with
  | nil => intro y d₁ d₂; rfl
  | cons z zs ih =>
    intro y d₁ d₂
    have h1 : (y :: z :: zs).getLastD d₁ = (z :: zs).getLastD y := by
      rw [List.getLastD_cons]
    have h2 : (y :: z :: zs).getLastD d₂ = (z :: zs).getLastD y := by
      rw [List.getLastD_cons]
    rw [h1, h2]

theorem getLastD_cons_of_ne_nil {gs : List (List Char)} (h : gs ≠ [])
    (g : List Char) (d₁ d₂ : List Char) :
    (g :: gs).getLastD d₁ = gs.getLastD d₂ := by
  cases gs with
  | nil => exact absurd rfl h
  | cons y ys =>
    have h1 : (g :: y :: ys).getLastD d₁ = (y :: ys).getLastD g := by
      rw [List.getLastD_cons]
    rw [h1]
    exact getLastD_default_irrel ys y g d₂

theorem splitComma_length_ge_two : ∀ (a b : List Char),
    2 ≤ (splitComma (a ++ ',' :: b)).length := by
  intro a
  induction a with
  | nil =>
    intro b
    rw [List.nil_append, splitComma, if_pos rfl]
    have := splitComma_ne_nil b
    cases hsb : splitComma b with
    | nil => exact absurd hsb this
    | cons x xs => simp
  | cons e es ihe =>
    intro b
    rw [List.cons_append, splitComma]
    by_cases he : e = ','
    · rw [if_pos he]
      have := splitComma_ne_nil (es ++ ',' :: b)
      cases hse : splitComma (es ++ ',' :: b) with
      | nil => exact absurd hse this
      | cons x xs => simp
    · rw [if_neg he]
      cases hse : splitComma (es ++ ',' :: b) with
      | nil => exact absurd hse (splitComma_ne_nil _)
      | cons x xs =>
        have := ihe b
        rw [hse] at this
        simp only [List.length_cons] at this ⊢
        omega

theorem splitComma_last : ∀ (a b : List Char), ',' ∉ b →
    (splitComma (a ++ ',' :: b)).getLastD [] = b := by
  intro a
  induction a with
  | nil =>
    intro b hb
    rw [List.nil_append, splitComma, if_pos rfl, splitComma_no_comma hb]
    rfl
  | cons c cs ih =>
    intro b hb
    rw [List.cons_append, splitComma]
    by_cases hc : c = ','
    · rw [if_pos hc]
      have hne := splitComma_ne_nil (cs ++ ',' :: b)
      rw [getLastD_cons_of_ne_nil hne _ _ []]
      exact ih b hb
    · rw [if_neg hc]
      cases h : splitComma (cs ++ ',' :: b) with
      | nil => exact absurd h (splitComma_ne_nil _)
      | cons g gs =>
        have hlast : (g :: gs).getLastD [] = b := by
          rw [← h]
          exact ih b hb
        cases gs with
        | nil =>
          exfalso
          have h2 := splitComma_length_ge_two cs b
          rw [h] at h2
          simp at h2
        | cons g2 gs2 =>
          rw [getLastD_cons_of_ne_nil (List.cons_ne_nil _ _) _ _ []]
          rw [getLastD_cons_of_ne_nil (List.cons_ne_nil _ _) _ _ []] at hlast
          exact hlast

/-! ## Initial fit parameters (analysis.py lines 126-142)

`make_params_kwargs` is the keyword dictionary the source builds: the linear
background's slope/intercept plus, for each enumerated segment peak,
`voigt_{i}_amplitude`, `voigt_{i}_center`, `voigt_{i}_sigma` and
`voigt_{i}_gamma`.  The keys are embedded as a tagged type; the dictionary
(whose keys are pairwise distinct) as an association list in insertion
order. -/

inductive KwKey where
  | linSlope : KwKey
  | linIntercept : KwKey
  | vAmplitude : Nat → KwKey
  | vCenter : Nat → KwKey
  | vSigma : Nat → KwKey
  | vFraction : Nat → KwKey
  | vGamma : Nat → KwKey
deriving DecidableEq, Repr

/-- Python `dict` lookup on the kwargs association list. -/
def kwLookup : List (KwKey × ℚ) → KwKey → Option ℚ
  | [], _ => none
  | (k', v) :: rest, k => if k' = k then some v else kwLookup rest k

/-- The per-peak kwargs of the `for i_p, (...) in enumerate(...)` loop
(lines 133-140), starting at index `n`. -/
def voigt_kwargs : Nat → List (ℚ × ℚ) → List (KwKey × ℚ)
  | _, [] => []
  | i, (a, c) :: rest =>
    (KwKey.vAmplitude i, c) :: (KwKey.vCenter i, a) ::
      (KwKey.vSigma i, 1 / 20) :: (KwKey.vGamma i, 1) ::
        voigt_kwargs (i + 1) rest

/-- `make_params_kwargs` (lines 128-140): `linear_slope = -0.01`,
`linear_intercept = 0`, then the per-peak entries; `segPeaks` is the zip of
the segment's `peak_angles` and `peak_counts`. -/
def make_params_kwargs (segPeaks : List (ℚ × ℚ)) : List (KwKey × ℚ) :=
  (KwKey.linSlope, -1 / 100) :: (KwKey.linIntercept, 0) ::
    voigt_kwargs 0 segPeaks

/-- The settable initial parameters of one pseudo-Voigt component. -/
structure PVInit where
  amplitude : ℚ
  center : ℚ
  sigma : ℚ
  fraction : ℚ
deriving DecidableEq, Repr

/-- Modelled from the external lmfit library (a dependency, not part of this
repository), whose documented `Model.make_params(**kwargs)` semantics assign
to each parameter name DECLARED by the model the value passed under that name
in kwargs, or the model's default.  `PseudoVoigtModel` declares `amplitude`
(default 1), `center` (0), `sigma` (1) and `fraction` (0.5); it declares no
`gamma`, so a `voigt_{i}_gamma` kwarg matches no declared parameter and is
ignored. -/
def pv_initial_params (segPeaks : List (ℚ × ℚ)) (i : Nat) : PVInit :=
  { amplitude := (kwLookup (make_params_kwargs segPeaks)
      (KwKey.vAmplitude i)).getD 1
    center := (kwLookup (make_params_kwargs segPeaks) (KwKey.vCenter i)).getD 0
    sigma := (kwLookup (make_params_kwargs segPeaks) (KwKey.vSigma i)).getD 1
    fraction := (kwLookup (make_params_kwargs segPeaks)
      (KwKey.vFraction i)).getD (1 / 2) }

/-- Modelled from lmfit's `LinearModel` (`slope` default 1, `intercept`
default 0), same `make_params` semantics. -/
def linear_initial_params (segPeaks : List (ℚ × ℚ)) : ℚ × ℚ :=
  ((kwLookup (make_params_kwargs segPeaks) KwKey.linSlope).getD 1,
    (kwLookup (make_params_kwargs segPeaks) KwKey.linIntercept).getD 0)

theorem kwLookup_vAmp :
    ∀ (l : List (ℚ × ℚ)) (n i : Nat) (h : i < l.length),
      kwLookup (voigt_kwargs n l) (KwKey.vAmplitude (n + i)) =
        some (l.get ⟨i, h⟩).2 := by
  intro l
  induction l with
  | nil => intro n i h; simp at h
  | cons hd tl ih =>
    obtain ⟨a, c⟩ := hd
    intro n i h
    cases i with
    | zero => simp [voigt_kwargs, kwLookup]
    | succ j =>
      have hj : j < tl.length := by
        simp only [List.length_cons] at h
        omega
      have hni : n + (j + 1) = (n + 1) + j := by omega
      rw [hni, voigt_kwargs]
      rw [kwLookup, if_neg (by simp only [KwKey.vAmplitude.injEq]; omega)]
      rw [kwLookup, if_neg fun hEq => (KwKey.noConfusion hEq : False)]
      rw [kwLookup, if_neg fun hEq => (KwKey.noConfusion hEq : False)]
      rw [kwLookup, if_neg fun hEq => (KwKey.noConfusion hEq : False)]
      rw [List.get_cons_succ]
      exact ih (n + 1) j hj

theorem kwLookup_vCenter :
    ∀ (l : List (ℚ × ℚ)) (n i : Nat) (h : i < l.length),
      kwLookup (voigt_kwargs n l) (KwKey.vCenter (n + i)) =
        some (l.get ⟨i, h⟩).1 := by
  intro l
  induction l with
  | nil => intro n i h; simp at h
  | cons hd tl ih =>
    obtain ⟨a, c⟩ := hd
    intro n i h
    cases i with
    | zero => simp [voigt_kwargs, kwLookup]
    | succ j =>
      have hj : j < tl.length := by
        simp only [List.length_cons] at h
        omega
      have hni : n + (j + 1) = (n + 1) + j := by omega
      rw [hni, voigt_kwargs]
      rw [kwLookup, if_neg fun hEq => (KwKey.noConfusion hEq : False)]
      rw [kwLookup, if_neg (by simp only [KwKey.vCenter.injEq]; omega)]
      rw [kwLookup, if_neg fun hEq => (KwKey.noConfusion hEq : False)]
      rw [kwLookup, if_neg fun hEq => (KwKey.noConfusion hEq : False)]
      rw [List.get_cons_succ]
      exact ih (n + 1) j hj

theorem kwLookup_vSigma :
    ∀ (l : List (ℚ × ℚ)) (n i : Nat), i < l.length →
      kwLookup (voigt_kwargs n l) (KwKey.vSigma (n + i)) = some (1 / 20) := by
  intro l
  induction l with
  | nil => intro n i h; simp at h
  | cons hd tl ih =>
    obtain ⟨a, c⟩ := hd
    intro n i h
    cases i with
    | zero => simp [voigt_kwargs, kwLookup]
    | succ j =>
      have hj : j < tl.length := by
        simp only [List.length_cons] at h
        omega
      have hni : n + (j + 1) = (n + 1) + j := by omega
      rw [hni, voigt_kwargs]
      rw [kwLookup, if_neg fun hEq => (KwKey.noConfusion hEq : False)]
      rw [kwLookup, if_neg fun hEq => (KwKey.noConfusion hEq : False)]
      rw [kwLookup, if_neg (by simp only [KwKey.vSigma.injEq]; omega)]
      rw [kwLookup, if_neg fun hEq => (KwKey.noConfusion hEq : False)]
      exact ih (n + 1) j hj

theorem kwLookup_vGamma :
    ∀ (l : List (ℚ × ℚ)) (n i : Nat), i < l.length →
      kwLookup (voigt_kwargs n l) (KwKey.vGamma (n + i)) = some 1 := by
  intro l
  induction l with
  | nil => intro n i h; simp at h
  | cons hd tl ih =>
    obtain ⟨a, c⟩ := hd
    intro n i h
    cases i with
    | zero => simp [voigt_kwargs, kwLookup]
    | succ j =>
      have hj : j < tl.length := by
        simp only [List.length_cons] at h
        omega
      have hni : n + (j + 1) = (n + 1) + j := by omega
      rw [hni, voigt_kwargs]
      rw [kwLookup, if_neg fun hEq => (KwKey.noConfusion hEq : False)]
      rw [kwLookup, if_neg fun hEq => (KwKey.noConfusion hEq : False)]
      rw [kwLookup, if_neg fun hEq => (KwKey.noConfusion hEq : False)]
      rw [kwLookup, if_neg (by simp only [KwKey.vGamma.injEq]; omega)]
      exact ih (n + 1) j hj

theorem voigt_kwargs_no_fraction :
    ∀ (l : List (ℚ × ℚ)) (n j : Nat),
      kwLookup (voigt_kwargs n l) (KwKey.vFraction j) = none := by
  intro l
  induction l with
  | nil => intro n j; rfl
  | cons hd tl ih =>
    obtain ⟨a, c⟩ := hd
    intro n j
    rw [voigt_kwargs]
    rw [kwLookup, if_neg fun hEq => (KwKey.noConfusion hEq : False)]
    rw [kwLookup, if_neg fun hEq => (KwKey.noConfusion hEq : False)]
    rw [kwLookup, if_neg fun hEq => (KwKey.noConfusion hEq : False)]
    rw [kwLookup, if_neg fun hEq => (KwKey.noConfusion hEq : False)]
    exact ih (n + 1) j


/-! ## Claims -/

/-- A concrete fit oracle for the pruning-loop demonstration: the initial
two-peak fit gives component 0 a height of 5 (below `min_peak_height = 10`)
and component 1 a valid peak at center 20; the refit performed after pruning
component 0 moves component 1's fitted center to 50, outside the segment
range [10, 30]. -/
def exOracle : List Comp → Nat → PV := fun comps i =>
  if comps = initComps 2 then
    if i = 0 then { height := 5, center := 20, sigma := 1 / 10 }
    else { height := 100, center := 20, sigma := 1 / 10 }
  else
    if i = 1 then { height := 100, center := 50, sigma := 1 / 10 }
    else { height := 100, center := 20, sigma := 1 / 10 }

/-- The fitter configuration for the demonstration: segment range [10, 30],
restricted signal spanning the same range, and the source's default
`min_peak_height = 10`, `max_sigma_scale_factor = 0.7`, `min_sigma = 0.02`. -/
def exCfg : FitCfg :=
  { segMin := 10, segMax := 30, dfMin := 10, dfMax := 30,
    minPeakHeight := 10, maxSigmaScale := 7 / 10, minSigma := 1 / 50 }

/-- C1 (code bug).  The prune-and-refit loop of `get_segment_peak_fit` does
not repeat until a fixed point: `last_valid_components = valid_components`
aliases both names to one Python list, the in-place appends extend that
shared list, and the guard `valid_components != last_valid_components` then
compares the list with itself — the loop body runs exactly once (third
conjunct).  On `exOracle` the single pass keeps `voigt_1` (first conjunct),
the refit moves its center out of the segment, and the pass that would
remove it never runs: the returned component set is not a fixed point of the
pruning pass (second conjunct). -/
theorem prune_loop_single_pass_keeps_invalidated_peak :
    (get_segment_peak_fit_core exOracle exCfg 2 10).valid =
        [Comp.linear, Comp.voigt 1] ∧
      validPass exCfg (get_segment_peak_fit_core exOracle exCfg 2 10).valid
          (get_segment_peak_fit_core exOracle exCfg 2 10).fitted =
        [Comp.linear] ∧
      get_segment_peak_fit_core exOracle exCfg 2 10 =
        get_segment_peak_fit_core exOracle exCfg 2 1 :=
  ⟨by with_unfolding_all decide, by with_unfolding_all decide,
    get_segment_peak_fit_one_pass exOracle exCfg 2 10 (by omega)⟩

/-- C2.  For every signal and every configuration whose neighborhood size
`neighborhood_intervals * interval_size` is nonnegative (the source's domain:
a negative neighborhood size makes the Python loop crash on `min([])` before
any segment is returned), the segments returned by `get_peak_segments` have
pairwise disjoint peak sets: a peak claimed by one segment's final cluster is
never collected into any later segment's cluster — the claimed-angle check
blocks re-seeding, and the fixed-point geometry of stabilized clusters keeps
later clusters strictly outside an earlier cluster's window. -/
theorem find_segments_peak_sets_disjoint (candidates : List (ℚ × ℚ))
    (interval_size neighborhood_intervals min_n_interval_separation
      min_angle : ℚ)
    (h : 0 ≤ neighborhood_intervals * interval_size) :
    List.Pairwise segPeaksDisjoint
      (get_peak_segments_core candidates interval_size neighborhood_intervals
        min_n_interval_separation min_angle) := by
  show List.Pairwise segPeaksDisjoint
    (segLoop candidates (neighborhood_intervals * interval_size)
      (min_n_interval_separation * interval_size) min_angle candidates [])
  refine (segLoop_disjoint_aux candidates
    (neighborhood_intervals * interval_size)
    (min_n_interval_separation * interval_size) min_angle h candidates []
    (fun p hp => hp) ?_).2
  intro t _ _ _ p _
  exact List.not_mem_nil _

/-- C2 witness: a concrete two-peak signal producing two disjoint
segments. -/
theorem find_segments_peak_sets_disjoint_witness :
    (0 : ℚ) ≤ 100 * 1 ∧
      List.Pairwise segPeaksDisjoint
        (get_peak_segments_core [((12 : ℚ), (5 : ℚ)), ((300 : ℚ), (7 : ℚ))]
          1 100 5 10) :=
  ⟨by norm_num,
    find_segments_peak_sets_disjoint
      [((12 : ℚ), (5 : ℚ)), ((300 : ℚ), (7 : ℚ))] 1 100 5 10 (by norm_num)⟩

/-- C3 counterexample: with `neighborhood_size = 40` (half-neighborhood 20)
and a singleton cluster at angle 0, the candidate at angle 30 lies outside
the claimed window `[cluster_min - 20, cluster_max + 20]`, yet the
recollection pass collects it. -/
theorem neighborhood_window_counterexample :
    ((30 : ℚ), (1 : ℚ)) ∈
        growStep [((0 : ℚ), (1 : ℚ)), ((30 : ℚ), (1 : ℚ))] 40 0
          [((0 : ℚ), (1 : ℚ))] ∧
      ¬((30 : ℚ) ≤ maxA [((0 : ℚ), (1 : ℚ))] + 40 / 2) := by
  with_unfolding_all decide

/-- C3 (amended).  Each recollection pass collects exactly the candidates
whose angle lies in `[cluster_min - 2*half_neighborhood, cluster_max +
2*half_neighborhood]` and is at least `min_angle`: the code subtracts/adds
`0.5 * neighborhood_size` once when forming `seg_min_angle`/`seg_max_angle`
and a second time in the membership test, so the window is the cluster's
extrema widened by the full neighborhood size on each side, not by half. -/
theorem neighborhood_recollection_window (candidates : List (ℚ × ℚ))
    (ns mA : ℚ) (c : List (ℚ × ℚ)) (p : ℚ × ℚ) :
    p ∈ growStep candidates ns mA c ↔
      p ∈ candidates ∧ minA c - ns / 2 - ns / 2 ≤ p.1 ∧
        p.1 ≤ maxA c + ns / 2 + ns / 2 ∧ mA ≤ p.1 :=
  mem_growStep

/-- C4 counterexample: for the one-peak segment at angle 20 with height 100,
the pseudo-Voigt's initial mixing fraction is the lmfit default 0.5, not 1 —
the source passes `voigt_0_gamma = 1`, which matches no declared pseudo-Voigt
parameter. -/
theorem initial_fraction_counterexample :
    (pv_initial_params [((20 : ℚ), (100 : ℚ))] 0).fraction = 1 / 2 ∧
      ¬((pv_initial_params [((20 : ℚ), (100 : ℚ))] 0).fraction = 1) := by
  with_unfolding_all decide

/-- C4 (amended).  The initial model is one linear background with
`slope = -0.01`, `intercept = 0`, plus one pseudo-Voigt per segment peak
seeded with `amplitude = peak.height`, `center = peak.angle`,
`sigma = 0.05`; the fourth seeded keyword is `gamma = 1`, which
`PseudoVoigtModel` does not declare and therefore ignores, so the mixing
fraction keeps lmfit's default value 0.5 (not 1). -/
theorem initial_model_parameters (segPeaks : List (ℚ × ℚ)) (i : Nat)
    (h : i < segPeaks.length) :
    linear_initial_params segPeaks = (-1 / 100, 0) ∧
      (pv_initial_params segPeaks i).amplitude = (segPeaks.get ⟨i, h⟩).2 ∧
      (pv_initial_params segPeaks i).center = (segPeaks.get ⟨i, h⟩).1 ∧
      (pv_initial_params segPeaks i).sigma = 1 / 20 ∧
      kwLookup (make_params_kwargs segPeaks) (KwKey.vGamma i) = some 1 ∧
      (pv_initial_params segPeaks i).fraction = 1 / 2 := by
  have hamp := kwLookup_vAmp segPeaks 0 i h
  have hcen := kwLookup_vCenter segPeaks 0 i h
  have hsig := kwLookup_vSigma segPeaks 0 i h
  have hgam := kwLookup_vGamma segPeaks 0 i h
  have hfra := voigt_kwargs_no_fraction segPeaks 0 i
  rw [Nat.zero_add] at hamp hcen hsig hgam
  refine ⟨?_, ?_, ?_, ?_, ?_, ?_⟩
  · simp [linear_initial_params, make_params_kwargs, kwLookup]
  · simp [pv_initial_params, make_params_kwargs, kwLookup, hamp]
  · simp [pv_initial_params, make_params_kwargs, kwLookup, hcen]
  · simp [pv_initial_params, make_params_kwargs, kwLookup, hsig]
  · simp [make_params_kwargs, kwLookup, hgam]
  · simp [pv_initial_params, make_params_kwargs, kwLookup, hfra]

/-- C4 witness: the amended statement evaluated on a one-peak segment. -/
theorem initial_model_parameters_witness :
    0 < [((20 : ℚ), (100 : ℚ))].length ∧
      (pv_initial_params [((20 : ℚ), (100 : ℚ))] 0).amplitude = 100 ∧
      (pv_initial_params [((20 : ℚ), (100 : ℚ))] 0).fraction = 1 / 2 :=
  ⟨by with_unfolding_all decide,
    (initial_model_parameters [((20 : ℚ), (100 : ℚ))] 0 (by with_unfolding_all decide)).2.1,
    (initial_model_parameters [((20 : ℚ), (100 : ℚ))] 0
      (by with_unfolding_all decide)).2.2.2.2.2⟩

/-- C5 counterexample: a single-angle column has no consecutive differences,
so the rounded step list has zero distinct values — not more than one — yet
`get_angle_interval_size` raises (`nunique()` is 0, not 1). -/
theorem interval_size_single_point_counterexample :
    get_angle_interval_size [{ mant := 105, prec := 1 }] =
        Except.error "Angles are not all evenly spaced!" ∧
      ¬(1 < (roundedSteps [{ mant := 105, prec := 1 }]).dedup.length) :=
  ⟨rfl, by with_unfolding_all decide⟩

/-- C5 (amended).  `get_angle_interval_size` raises if and only if the
consecutive differences, rounded to one decimal place less than the input's
maximum precision, take a number of distinct values different from one — in
particular it raises on columns with fewer than two entries, where that
number is zero; on every uniformly spaced column of at least two angles it
returns the common difference rounded to `max_precision - 1` decimals,
without raising. -/
theorem interval_size_spec (col : List Dec) :
    ((∃ q, get_angle_interval_size col = Except.ok q) ↔
        (roundedSteps col).dedup.length = 1) ∧
      ∀ d : ℚ, 2 ≤ col.length → (∀ x ∈ diffs col, x = d) →
        get_angle_interval_size col =
          Except.ok (roundTo ((maxPrec col : ℤ) - 1) d) := by
  constructor
  · cases col with
    | nil =>
      simp [get_angle_interval_size, roundedSteps, diffs]
    | cons c0 rest =>
      rw [get_angle_interval_size]
      by_cases hd : (roundedSteps (c0 :: rest)).dedup.length = 1
      · rw [if_pos hd]
        simp [hd]
      · rw [if_neg hd]
        simp [hd]
  · intro d hlen hall
    exact gais_uniform hlen hall

/-- C5 witness: a three-point column with exact step 0.06 and maximum
precision 2; the returned value is the step rounded to one decimal. -/
theorem interval_size_spec_witness :
    2 ≤ [Dec.mk 1005 2, Dec.mk 1011 2, Dec.mk 1017 2].length ∧
      get_angle_interval_size [Dec.mk 1005 2, Dec.mk 1011 2, Dec.mk 1017 2] =
        Except.ok (roundTo
          ((maxPrec [Dec.mk 1005 2, Dec.mk 1011 2, Dec.mk 1017 2] : ℤ) - 1)
          (6 / 100)) :=
  ⟨by with_unfolding_all decide,
    (interval_size_spec [Dec.mk 1005 2, Dec.mk 1011 2, Dec.mk 1017 2]).2
      (6 / 100) (by with_unfolding_all decide) (by with_unfolding_all decide)⟩

/-- C6.  Within a stabilized cluster, a peak is retained if and only if its
height is at least that of every other cluster peak (compared by angle)
whose angle is strictly within the separation threshold — ties keep the
peak; in particular, of two peaks 0.3 apart with threshold
`5 * 0.1 = 0.5` and heights 50 and 100, only the taller is retained. -/
theorem dominance_filter_spec :
    (∀ (thr : ℚ) (cluster : List (ℚ × ℚ)) (p : ℚ × ℚ),
        p ∈ domFilter thr cluster ↔
          p ∈ cluster ∧
            ∀ q ∈ cluster, q.1 ≠ p.1 → |p.1 - q.1| < thr → q.2 ≤ p.2) ∧
      domFilter (5 * (1 / 10))
          [((10 : ℚ), (50 : ℚ)), ((103 / 10 : ℚ), (100 : ℚ))] =
        [((103 / 10 : ℚ), (100 : ℚ))] :=
  ⟨fun _ _ _ => mem_domFilter, by with_unfolding_all decide⟩

/-- C7.  With a nonnegative `neighborhood_intervals` and positive
`IntervalSize`, every returned segment's `min`/`max` bounds contain all of
its retained peak angles. -/
theorem segment_bounds_contain_peaks (candidates : List (ℚ × ℚ))
    (interval_size neighborhood_intervals min_n_interval_separation
      min_angle : ℚ) (hni : 0 ≤ neighborhood_intervals)
    (his : 0 < interval_size) :
    ∀ s ∈ get_peak_segments_core candidates interval_size
        neighborhood_intervals min_n_interval_separation min_angle,
      ∀ p ∈ s.peaks, s.min ≤ p.1 ∧ p.1 ≤ s.max := by
  intro s hs p hp
  have hs' : s ∈ segLoop candidates
      (neighborhood_intervals * interval_size)
      (min_n_interval_separation * interval_size) min_angle candidates [] :=
    hs
  exact segLoop_bounds candidates (neighborhood_intervals * interval_size)
    (min_n_interval_separation * interval_size) min_angle
    (mul_nonneg hni his.le) candidates [] s hs' p hp

/-- C7 witness: the single-peak signal at angle 12 yields the segment
[-38, 62], which contains the peak angle. -/
theorem segment_bounds_contain_peaks_witness :
    (0 : ℚ) ≤ 100 ∧ (0 : ℚ) < 1 ∧
      ((Seg.mk (-38) 62 [((12 : ℚ), (5 : ℚ))]).min ≤ ((12 : ℚ), (5 : ℚ)).1 ∧
        ((12 : ℚ), (5 : ℚ)).1 ≤ (Seg.mk (-38) 62 [((12 : ℚ), (5 : ℚ))]).max) :=
  ⟨by norm_num, by norm_num,
    segment_bounds_contain_peaks [((12 : ℚ), (5 : ℚ))] 1 100 5 10
      (by norm_num) (by norm_num) (Seg.mk (-38) 62 [((12 : ℚ), (5 : ℚ))])
      (by with_unfolding_all decide) ((12 : ℚ), (5 : ℚ)) (by with_unfolding_all decide)⟩

/-- C8.  The neighborhood-growth loop terminates within a number of
iterations bounded by the number of candidate peaks: fuel equal to
`candidates.length` already reaches a fixed point of the recollection pass,
and extra fuel changes nothing.  The pruning loop of the fitter terminates
within a number of passes bounded by the number of segment peaks: it always
stops after its single pass (see C1), so fuel `nPeaks ≥ 1` computes the
final state and extra fuel changes nothing. -/
theorem loops_terminate_within_peak_bounds :
    (∀ (candidates : List (ℚ × ℚ)) (ns mA : ℚ) (t : ℚ × ℚ) (fuel : Nat),
        0 ≤ ns → t ∈ candidates → mA ≤ t.1 → candidates.length ≤ fuel →
        growLoop candidates ns mA fuel [t] =
            growLoop candidates ns mA candidates.length [t] ∧
          growStep candidates ns mA
              (growLoop candidates ns mA candidates.length [t]) =
            growLoop candidates ns mA candidates.length [t]) ∧
      ∀ (fit : List Comp → Nat → PV) (cfg : FitCfg) (nPeaks fuel : Nat),
        1 ≤ nPeaks → nPeaks ≤ fuel →
        get_segment_peak_fit_core fit cfg nPeaks fuel =
          get_segment_peak_fit_core fit cfg nPeaks nPeaks := by
  constructor
  · intro candidates ns mA t fuel hns ht htA hlen
    have hfix := growLoop_seed_fix hns ht htA
    constructor
    · obtain ⟨k, rfl⟩ : ∃ k, fuel = candidates.length + k :=
        ⟨fuel - candidates.length, by omega⟩
      rw [growLoop_add]
      exact growLoop_of_fix hfix k
    · exact hfix
  · intro fit cfg nPeaks fuel h1 h2
    rw [get_segment_peak_fit_one_pass fit cfg nPeaks fuel (by omega),
      ← get_segment_peak_fit_one_pass fit cfg nPeaks nPeaks (by omega)]

/-- C8 witness: both bounds evaluated at concrete inputs. -/
theorem loops_terminate_within_peak_bounds_witness :
    ((0 : ℚ) ≤ 2 ∧ ((12 : ℚ), (5 : ℚ)) ∈ [((12 : ℚ), (5 : ℚ))] ∧
        (10 : ℚ) ≤ ((12 : ℚ), (5 : ℚ)).1 ∧
        [((12 : ℚ), (5 : ℚ))].length ≤ 3 ∧
        growLoop [((12 : ℚ), (5 : ℚ))] 2 10 3 [((12 : ℚ), (5 : ℚ))] =
          growLoop [((12 : ℚ), (5 : ℚ))] 2 10
            [((12 : ℚ), (5 : ℚ))].length [((12 : ℚ), (5 : ℚ))]) ∧
      1 ≤ 2 ∧ 2 ≤ 5 ∧
        get_segment_peak_fit_core (fun _ _ => PV.mk 1 1 1)
            (FitCfg.mk 0 100 0 100 10 (7 / 10) (1 / 50)) 2 5 =
          get_segment_peak_fit_core (fun _ _ => PV.mk 1 1 1)
            (FitCfg.mk 0 100 0 100 10 (7 / 10) (1 / 50)) 2 2 :=
  ⟨⟨by norm_num, by with_unfolding_all decide, by with_unfolding_all decide, by with_unfolding_all decide,
      (loops_terminate_within_peak_bounds.1 [((12 : ℚ), (5 : ℚ))] 2 10
        ((12 : ℚ), (5 : ℚ)) 3 (by norm_num) (by with_unfolding_all decide) (by with_unfolding_all decide)
        (by with_unfolding_all decide)).1⟩,
    by with_unfolding_all decide, by with_unfolding_all decide,
    loops_terminate_within_peak_bounds.2 (fun _ _ => PV.mk 1 1 1)
      (FitCfg.mk 0 100 0 100 10 (7 / 10) (1 / 50)) 2 5 (by with_unfolding_all decide)
      (by with_unfolding_all decide)⟩

/-- C9.  The embedded engine is deterministic: both `get_peak_segments` and
`get_segment_peak_fit` are pure functions of their inputs (the candidate
list, interval size and configuration; the fit oracle standing for the
deterministic lmfit optimizer), so repeated invocations with the same
arguments are equal. -/
theorem engine_deterministic :
    (∀ (candidates : List (ℚ × ℚ))
        (interval_size neighborhood_intervals min_n_interval_separation
          min_angle : ℚ),
        get_peak_segments_core candidates interval_size
            neighborhood_intervals min_n_interval_separation min_angle =
          get_peak_segments_core candidates interval_size
            neighborhood_intervals min_n_interval_separation min_angle) ∧
      ∀ (fit : List Comp → Nat → PV) (cfg : FitCfg) (nPeaks fuel : Nat),
        get_segment_peak_fit_core fit cfg nPeaks fuel =
          get_segment_peak_fit_core fit cfg nPeaks fuel :=
  ⟨fun _ _ _ _ _ => rfl, fun _ _ _ _ => rfl⟩

/-- C10.  When the second line is newline-terminated, `get_raw_file_name`
returns the part of the second line strictly after its last comma including
the terminating newline (nothing is stripped); when the second line has no
comma, the whole second line including the newline is returned. -/
theorem get_raw_file_name_spec (l1 l2 rest a b : List Char)
    (h1 : '\n' ∉ l1) (h2 : '\n' ∉ l2) :
    ((',' ∉ l2) →
        get_raw_file_name (l1 ++ '\n' :: (l2 ++ '\n' :: rest)) =
          l2 ++ ['\n']) ∧
      (l2 = a ++ ',' :: b → (',' ∉ b) →
        get_raw_file_name (l1 ++ '\n' :: (l2 ++ '\n' :: rest)) =
          b ++ ['\n']) := by
  have hr1 : readline (l1 ++ '\n' :: (l2 ++ '\n' :: rest)) =
      (l1 ++ ['\n'], l2 ++ '\n' :: rest) := readline_append h1 _
  have hr2 : readline (l2 ++ '\n' :: rest) = (l2 ++ ['\n'], rest) :=
    readline_append h2 _
  constructor
  · intro hnc
    show (splitComma
        (readline (readline (l1 ++ '\n' :: (l2 ++ '\n' :: rest))).2).1
      ).getLastD [] = l2 ++ ['\n']
    simp only [hr1, hr2]
    have hnc' : ',' ∉ l2 ++ ['\n'] := by
      intro hmem
      rcases List.mem_append.mp hmem with hmm | hmm
      · exact hnc hmm
      · rw [List.mem_singleton] at hmm
        exact (by with_unfolding_all decide : (',' : Char) ≠ '\n') hmm
    rw [splitComma_no_comma hnc']
    rfl
  · intro hab hnb
    subst hab
    show (splitComma
        (readline (readline
          (l1 ++ '\n' :: ((a ++ ',' :: b) ++ '\n' :: rest))).2).1
      ).getLastD [] = b ++ ['\n']
    simp only [hr1, hr2]
    have hnb' : ',' ∉ b ++ ['\n'] := by
      intro hmem
      rcases List.mem_append.mp hmem with hmm | hmm
      · exact hnb hmm
      · rw [List.mem_singleton] at hmm
        exact (by with_unfolding_all decide : (',' : Char) ≠ '\n') hmm
    have hassoc : (a ++ ',' :: b) ++ ['\n'] = a ++ ',' :: (b ++ ['\n']) := by
      rw [List.append_assoc]
      rfl
    rw [hassoc, splitComma_last a (b ++ ['\n']) hnb']

/-- C10 witness: the file content "ab\nx,y\nz" yields the tag "y\n",
newline included. -/
theorem get_raw_file_name_spec_witness :
    ('\n' ∉ ['a', 'b']) ∧ ('\n' ∉ ['x', ',', 'y']) ∧
      get_raw_file_name
          (['a', 'b'] ++ '\n' :: (['x', ',', 'y'] ++ '\n' :: ['z'])) =
        ['y'] ++ ['\n'] :=
  ⟨by with_unfolding_all decide, by with_unfolding_all decide,
    (get_raw_file_name_spec ['a', 'b'] ['x', ',', 'y'] ['z'] ['x'] ['y']
      (by with_unfolding_all decide) (by with_unfolding_all decide)).2 (by with_unfolding_all decide) (by with_unfolding_all decide)⟩


end XRD
